import Mathlib

/-!
# Bit-field codecs: shallow embedding and verification

Embedding of `src/bitfield.py`: a 32-bit word-size constant, the
`BitField` descriptor (construction-time validation, mask/shift
precomputation, `insert`, `extract`, `extract_signed`) and the free
function `sign_extend`.

Python integers are modelled as `Int` (arbitrary precision, two's
complement bitwise semantics: `&` is `Int.land`, `|` is `Int.lor`,
`<<`/`>>` are the integer shifts).  A Python `assert` failure is
modelled as `Option.none`.
-/

/-- `WORD_SIZE = 32` from the source. -/
def WORD_SIZE : Nat := 32

/-- Modelled from the spec: the `BitField` class body is an unimplemented
skeleton in `src/bitfield.py` (a `pass` with a FIXME comment), so the
descriptor's attributes follow §3 of the spec: inclusive bit positions
`from_bit` and `to_bit` (0 = least significant). -/
structure BitField where
  from_bit : Nat
  to_bit : Nat
deriving DecidableEq, Repr

namespace BitField

/-- Modelled from the spec: `width = to_bit - from_bit + 1`, the number of
bits in the field. -/
def width (bf : BitField) : Nat := bf.to_bit - bf.from_bit + 1

/-- Modelled from the spec: `value_mask` has the low `width` bits set,
i.e. `(1 << width) - 1`. -/
def value_mask (bf : BitField) : Nat := 2 ^ bf.width - 1

/-- Modelled from the spec: `field_mask = value_mask << from_bit`,
identifying the field's bit positions within the word. -/
def field_mask (bf : BitField) : Nat := bf.value_mask <<< bf.from_bit

/-- Modelled from the spec: `hole_mask` is the bitwise complement of
`field_mask` restricted to `WORD_SIZE` bits. -/
def hole_mask (bf : BitField) : Nat := bf.field_mask ^^^ (2 ^ WORD_SIZE - 1)

end BitField

/-- Modelled from the spec: `BitField(from_bit, to_bit)` validates
`0 <= from_bit <= to_bit <= WORD_SIZE - 1` and fails with a
range/validation error (here `none`) otherwise, never silently
clamping. -/
def mkBitField (from_bit to_bit : Int) : Option BitField :=
  if 0 ≤ from_bit ∧ from_bit ≤ to_bit ∧ to_bit ≤ (WORD_SIZE : Int) - 1 then
    some ⟨from_bit.toNat, to_bit.toNat⟩
  else
    none

namespace BitField

/-- Modelled from the spec: `insert(field_value, word)` clears the field's
bits of `word` with `hole_mask`, masks `field_value` to `width` bits with
`value_mask`, shifts it to position `from_bit` and ORs the two:
`(word & hole_mask) | ((field_value & value_mask) << from_bit)`. -/
def insert (bf : BitField) (field_value word : Int) : Int :=
  Int.lor (Int.land word (bf.hole_mask : Int))
    (Int.land field_value (bf.value_mask : Int) <<< (bf.from_bit : Int))

/-- Modelled from the spec: `extract(word) = (word >> from_bit) & value_mask`. -/
def extract (bf : BitField) (word : Int) : Int :=
  Int.land (word >>> bf.from_bit) (bf.value_mask : Int)

end BitField

/-- `sign_extend(field, width)` from the source: interpret `field` as a
signed integer of `width` bits.  The two Python `assert` statements
(`width > 1` and `0 <= field < 1 << (width + 1)`) become the guards; an
assertion failure is `none`. -/
def sign_extend (field width : Int) : Option Int :=
  if 1 < width then
    if 0 ≤ field ∧ field < 1 <<< (width + 1) then
      let sign_bit : Int := 1 <<< (width - 1)
      let mask : Int := sign_bit - 1
      if Int.land field sign_bit ≠ 0 then
        some (Int.land field mask - sign_bit)
      else
        some field
    else
      none
  else
    none

/-- Modelled from the spec: `extract_signed(word)` extracts the unsigned
field value and applies sign extension at the field's width. -/
def BitField.extract_signed (bf : BitField) (word : Int) : Option Int :=
  sign_extend (bf.extract word) (bf.width : Int)

/-! ## Bridge lemmas between `Int` bitwise operations and `Nat` bit reasoning -/

theorem int_land_natCast (m n : Nat) :
    Int.land (m : Int) (n : Int) = ((m &&& n : Nat) : Int) := rfl

theorem int_land_negSucc_natCast (m n : Nat) :
    Int.land (Int.negSucc m) (n : Int) = ((Nat.ldiff n m : Nat) : Int) := rfl

theorem int_lor_natCast (m n : Nat) :
    Int.lor (m : Int) (n : Int) = ((m ||| n : Nat) : Int) := rfl

theorem int_testBit_natCast (m i : Nat) :
    Int.testBit (m : Int) i = m.testBit i := rfl

theorem int_shiftRight_natCast (m s : Nat) :
    (m : Int) >>> s = ((m >>> s : Nat) : Int) := rfl

theorem ldiff_two_pow_sub_one (k n : Nat) :
    Nat.ldiff (2 ^ k - 1) n = 2 ^ k - 1 - n % 2 ^ k := by
  have hlt : n % 2 ^ k < 2 ^ k := Nat.mod_lt _ (Nat.two_pow_pos k)
  apply Nat.eq_of_testBit_eq
  intro i
  have e : 2 ^ k - 1 - n % 2 ^ k = 2 ^ k - (n % 2 ^ k + 1) := by omega
  rw [Nat.testBit_ldiff, Nat.testBit_two_pow_sub_one, e,
    Nat.testBit_two_pow_sub_succ hlt, Nat.testBit_mod_two_pow]
  by_cases hik : i < k <;> simp [hik]

/-- Python `v & ((1 << k) - 1)` equals `v mod 2^k`, for any integer `v`
(also negative ones, by two's complement). -/
theorem int_land_mask_emod (v : Int) (k : Nat) :
    Int.land v ((2 ^ k - 1 : Nat) : Int) = v % ((2 ^ k : Nat) : Int) := by
  cases v with
  | ofNat n =>
      show ((n &&& (2 ^ k - 1) : Nat) : Int) = ((n % 2 ^ k : Nat) : Int)
      rw [Nat.and_pow_two_sub_one_eq_mod]
  | negSucc n =>
      show ((Nat.ldiff (2 ^ k - 1) n : Nat) : Int) = Int.subNatNat (2 ^ k) (n % 2 ^ k + 1)
      have hlt : n % 2 ^ k < 2 ^ k := Nat.mod_lt _ (Nat.two_pow_pos k)
      rw [ldiff_two_pow_sub_one, Int.subNatNat_of_le (by omega)]
      have e : 2 ^ k - 1 - n % 2 ^ k = 2 ^ k - (n % 2 ^ k + 1) := by omega
      rw [e]

/-- The bit at position `K` of `n < 2^(K+1)` is set exactly when `2^K ≤ n`. -/
theorem testBit_msb_div (n K : Nat) (h : n < 2 * 2 ^ K) :
    n.testBit K = decide (2 ^ K ≤ n) := by
  rw [Nat.testBit_to_div_mod]
  rcases Nat.lt_or_ge n (2 ^ K) with hl | hg
  · rw [Nat.div_eq_of_lt hl]
    simp [Nat.not_le.mpr hl]
  · have h1 : n / 2 ^ K = 1 := Nat.div_eq_of_lt_le (by omega) (by omega)
    rw [h1]
    simp [hg]

theorem hole_mask_testBit_in (bf : BitField) (j : Nat) (h1 : bf.from_bit ≤ j)
    (h2 : j < bf.from_bit + bf.width) (h3 : bf.from_bit + bf.width ≤ WORD_SIZE) :
    bf.hole_mask.testBit j = false := by
  unfold BitField.hole_mask BitField.field_mask
  simp only [Nat.testBit_xor, Nat.testBit_shiftLeft, BitField.value_mask,
    Nat.testBit_two_pow_sub_one]
  have hj1 : j - bf.from_bit < bf.width := by omega
  have hj2 : j < WORD_SIZE := by omega
  simp [h1, hj1, hj2]

theorem hole_mask_testBit_out (bf : BitField) (j : Nat)
    (h : j < bf.from_bit ∨ bf.from_bit + bf.width ≤ j) :
    bf.hole_mask.testBit j = decide (j < WORD_SIZE) := by
  unfold BitField.hole_mask BitField.field_mask
  simp only [Nat.testBit_xor, Nat.testBit_shiftLeft, BitField.value_mask,
    Nat.testBit_two_pow_sub_one]
  rcases h with h | h
  · simp [Nat.not_le.mpr h]
  · have hj : ¬ (j - bf.from_bit < bf.width) := by omega
    simp [hj, show bf.from_bit ≤ j by omega]

theorem mkBitField_bounds {f t : Int} {bf : BitField} (h : mkBitField f t = some bf) :
    bf.from_bit = f.toNat ∧ bf.to_bit = t.toNat ∧ bf.from_bit ≤ bf.to_bit ∧
      bf.to_bit < WORD_SIZE := by
  unfold mkBitField at h
  split at h
  · rename_i hc
    obtain ⟨h0, h1, h2⟩ := hc
    injection h with h
    subst h
    simp only [WORD_SIZE] at h2
    exact ⟨rfl, rfl, by show f.toNat ≤ t.toNat; omega,
      by show t.toNat < WORD_SIZE; simp only [WORD_SIZE]; omega⟩
  · exact absurd h (by simp)

theorem mkBitField_from_add_width {f t : Int} {bf : BitField} (h : mkBitField f t = some bf) :
    bf.from_bit + bf.width ≤ WORD_SIZE := by
  obtain ⟨h1, h2, h3, h4⟩ := mkBitField_bounds h
  unfold BitField.width
  omega

theorem insert_val_lt (bf : BitField) (v : Int) :
    (v % ((2 ^ bf.width : Nat) : Int)).toNat < 2 ^ bf.width := by
  have hpos : (0 : Int) < ((2 ^ bf.width : Nat) : Int) := by
    exact_mod_cast Nat.two_pow_pos bf.width
  have h1 := Int.emod_lt_of_pos v hpos
  have h2 := Int.emod_nonneg v (show ((2 ^ bf.width : Nat) : Int) ≠ 0 by omega)
  omega

/-- `insert` on a nonnegative word, reduced to `Nat` bit operations. -/
theorem insert_eq_natCast (bf : BitField) (v : Int) (n : Nat) :
    bf.insert v (n : Int) =
      (((n &&& bf.hole_mask) |||
        ((v % ((2 ^ bf.width : Nat) : Int)).toNat <<< bf.from_bit) : Nat) : Int) := by
  unfold BitField.insert
  have e : (bf.value_mask : Int) = ((2 ^ bf.width - 1 : Nat) : Int) := rfl
  have hpos : (0 : Int) < ((2 ^ bf.width : Nat) : Int) := by
    exact_mod_cast Nat.two_pow_pos bf.width
  have hnn : 0 ≤ v % ((2 ^ bf.width : Nat) : Int) :=
    Int.emod_nonneg v (by omega)
  rw [e, int_land_mask_emod]
  set m := (v % ((2 ^ bf.width : Nat) : Int)).toNat with hm_def
  have hm : (m : Int) = v % ((2 ^ bf.width : Nat) : Int) := Int.toNat_of_nonneg hnn
  rw [← hm, int_land_natCast, Int.shiftLeft_coe_nat, int_lor_natCast]

/-- `extract`, reduced to `Nat` bit operations. -/
theorem extract_eq_natCast (bf : BitField) (n : Nat) :
    bf.extract (n : Int) = (((n >>> bf.from_bit) &&& bf.value_mask : Nat) : Int) := rfl

/-- Core of the round-trip: reading the field back out of a word whose
field bits come only from the shifted value. -/
theorem nat_extract_insert (s k u vm : Nat) (hvm : vm < 2 ^ k)
    (hu : ∀ j, s ≤ j → j < s + k → u.testBit j = false) :
    ((u ||| vm <<< s) >>> s) &&& (2 ^ k - 1) = vm := by
  apply Nat.eq_of_testBit_eq
  intro j
  simp only [Nat.testBit_and, Nat.testBit_shiftRight, Nat.testBit_or, Nat.testBit_shiftLeft,
    Nat.testBit_two_pow_sub_one]
  by_cases hjk : j < k
  · have h1 : u.testBit (s + j) = false := hu _ (by omega) (by omega)
    have h2 : s + j - s = j := by omega
    have h3 : s ≤ s + j := by omega
    simp [h1, h2, h3, hjk]
  · have h2 : vm.testBit j = false :=
      Nat.testBit_lt_two_pow
        (lt_of_lt_of_le hvm (Nat.pow_le_pow_right (by norm_num) (by omega)))
    simp [hjk, h2]

/-- ANDing any integer with `hole_mask` yields a natural number whose field
bits are all clear. -/
theorem int_land_hole_bits (bf : BitField) (w : Int)
    (hsk : bf.from_bit + bf.width ≤ WORD_SIZE) :
    ∃ u : Nat, Int.land w (bf.hole_mask : Int) = (u : Int) ∧
      ∀ j, bf.from_bit ≤ j → j < bf.from_bit + bf.width → u.testBit j = false := by
  cases w with
  | ofNat n =>
      refine ⟨n &&& bf.hole_mask, int_land_natCast n _, fun j hj1 hj2 => ?_⟩
      rw [Nat.testBit_and, hole_mask_testBit_in bf j hj1 hj2 hsk, Bool.and_false]
  | negSucc n =>
      refine ⟨Nat.ldiff bf.hole_mask n, int_land_negSucc_natCast n _, fun j hj1 hj2 => ?_⟩
      rw [Nat.testBit_ldiff, hole_mask_testBit_in bf j hj1 hj2 hsk, Bool.false_and]

/-! ## Claims -/

/-- C1: for every `BitField` of width `k` constructed with valid bounds,
every word `w` and every integer field value `v`,
`extract (insert v w) = v & ((1 << k) - 1)`, the low `k` bits of `v`. -/
theorem extract_insert_roundtrip (f t : Int) (bf : BitField) (v w : Int)
    (h : mkBitField f t = some bf) :
    bf.extract (bf.insert v w) = Int.land v ((2 ^ bf.width - 1 : Nat) : Int) := by
  have hsk : bf.from_bit + bf.width ≤ WORD_SIZE := mkBitField_from_add_width h
  obtain ⟨u, hu, hbits⟩ := int_land_hole_bits bf w hsk
  have hpos : (0 : Int) < ((2 ^ bf.width : Nat) : Int) := by
    exact_mod_cast Nat.two_pow_pos bf.width
  have hnn : 0 ≤ v % ((2 ^ bf.width : Nat) : Int) := Int.emod_nonneg v (by omega)
  set vm := (v % ((2 ^ bf.width : Nat) : Int)).toNat with hvm_def
  have hvm : vm < 2 ^ bf.width := insert_val_lt bf v
  have hins : bf.insert v w = ((u ||| vm <<< bf.from_bit : Nat) : Int) := by
    unfold BitField.insert
    have e : (bf.value_mask : Int) = ((2 ^ bf.width - 1 : Nat) : Int) := rfl
    rw [e, int_land_mask_emod, hu]
    have hm : (vm : Int) = v % ((2 ^ bf.width : Nat) : Int) := Int.toNat_of_nonneg hnn
    rw [← hm, Int.shiftLeft_coe_nat, int_lor_natCast]
  rw [hins, extract_eq_natCast]
  have e2 : (((u ||| vm <<< bf.from_bit) >>> bf.from_bit) &&& bf.value_mask : Nat) = vm := by
    show ((u ||| vm <<< bf.from_bit) >>> bf.from_bit) &&& (2 ^ bf.width - 1) = vm
    exact nat_extract_insert bf.from_bit bf.width u vm hvm hbits
  rw [e2, int_land_mask_emod]
  exact Int.toNat_of_nonneg hnn

/-- C2: `insert` agrees with the original word on every bit position
outside the inclusive range `[from_bit, to_bit]`. -/
theorem insert_frame (f t : Int) (bf : BitField) (v w : Int) (i : Nat)
    (h : mkBitField f t = some bf) (hw0 : 0 ≤ w)
    (hw : w < ((2 ^ WORD_SIZE : Nat) : Int))
    (hi : i < bf.from_bit ∨ bf.to_bit < i) :
    Int.testBit (bf.insert v w) i = Int.testBit w i := by
  have hsk : bf.from_bit + bf.width ≤ WORD_SIZE := mkBitField_from_add_width h
  obtain ⟨hf, ht, hle, hub⟩ := mkBitField_bounds h
  obtain ⟨n, rfl⟩ := Int.eq_ofNat_of_zero_le hw0
  have hn : n < 2 ^ WORD_SIZE := by exact_mod_cast hw
  have hvm : (v % ((2 ^ bf.width : Nat) : Int)).toNat < 2 ^ bf.width := insert_val_lt bf v
  rw [insert_eq_natCast, int_testBit_natCast, int_testBit_natCast]
  have hi' : i < bf.from_bit ∨ bf.from_bit + bf.width ≤ i := by
    unfold BitField.width at *
    omega
  simp only [Nat.testBit_or, Nat.testBit_and, Nat.testBit_shiftLeft]
  rw [hole_mask_testBit_out bf i hi']
  by_cases hiw : i < WORD_SIZE
  · have hd : decide (i < WORD_SIZE) = true := decide_eq_true hiw
    have hsh : (decide (bf.from_bit ≤ i) &&
        (v % ((2 ^ bf.width : Nat) : Int)).toNat.testBit (i - bf.from_bit)) = false := by
      rcases hi' with hlt | hge
      · rw [decide_eq_false (Nat.not_le.mpr hlt), Bool.false_and]
      · have hb : (v % ((2 ^ bf.width : Nat) : Int)).toNat.testBit (i - bf.from_bit) = false :=
          Nat.testBit_lt_two_pow
            (lt_of_lt_of_le hvm (Nat.pow_le_pow_right (by norm_num) (by omega)))
        rw [hb, Bool.and_false]
    rw [hd, Bool.and_true, hsh, Bool.or_false]
  · have hd : decide (i < WORD_SIZE) = false := decide_eq_false hiw
    have h1 : n.testBit i = false :=
      Nat.testBit_lt_two_pow
        (lt_of_lt_of_le hn (Nat.pow_le_pow_right (by norm_num) (by omega)))
    have h2 : (v % ((2 ^ bf.width : Nat) : Int)).toNat.testBit (i - bf.from_bit) = false :=
      Nat.testBit_lt_two_pow
        (lt_of_lt_of_le hvm (Nat.pow_le_pow_right (by norm_num)
          (by simp only [WORD_SIZE] at hsk hiw; omega)))
    rw [hd, Bool.and_false, h1, Bool.false_or, h2, Bool.and_false]

/-- Evaluation of `sign_extend` on a nonnegative field that passes the
source's (lax) assertion `field < 2^(width+1)`. -/
theorem sign_extend_eval (n W : Nat) (hW : 2 ≤ W) (hn : n < 2 ^ (W + 1)) :
    sign_extend (n : Int) (W : Int) =
      if n &&& 2 ^ (W - 1) ≠ 0 then
        some (((n &&& (2 ^ (W - 1) - 1) : Nat) : Int) - ((2 ^ (W - 1) : Nat) : Int))
      else
        some (n : Int) := by
  have h1 : (1 : Int) < (W : Int) := by exact_mod_cast hW
  have e1 : (W : Int) + 1 = ((W + 1 : Nat) : Int) := by push_cast; ring
  have e2 : (W : Int) - 1 = ((W - 1 : Nat) : Int) := by omega
  have e3 : ((2 ^ (W - 1) : Nat) : Int) - 1 = ((2 ^ (W - 1) - 1 : Nat) : Int) := by
    have := Nat.two_pow_pos (W - 1)
    omega
  simp only [sign_extend]
  rw [if_pos h1, e1, Int.one_shiftLeft, e2, Int.one_shiftLeft,
    if_pos (⟨Int.ofNat_nonneg n, by exact_mod_cast hn⟩ :
      0 ≤ (n : Int) ∧ (n : Int) < ((2 ^ (W + 1) : Nat) : Int)),
    e3, int_land_natCast, int_land_natCast]
  by_cases hc : n &&& 2 ^ (W - 1) = 0 <;> simp [hc]

/-- C3: construction succeeds exactly for `0 ≤ from_bit ≤ to_bit ≤ 31`;
`BitField(4, 7)` succeeds with width 4, `BitField(30, 35)` and
`BitField(5, 2)` fail. -/
theorem mkBitField_valid_iff :
    (∀ f t : Int, (mkBitField f t).isSome = true ↔ (0 ≤ f ∧ f ≤ t ∧ t ≤ 31)) ∧
    (mkBitField 4 7).map BitField.width = some 4 ∧
    mkBitField 30 35 = none ∧
    mkBitField 5 2 = none := by
  refine ⟨fun f t => ?_, by decide, by decide, by decide⟩
  unfold mkBitField
  split
  · rename_i hc
    obtain ⟨a, b, c⟩ := hc
    simp only [WORD_SIZE] at c
    simp only [Option.isSome_some, true_iff]
    exact ⟨a, b, by omega⟩
  · rename_i hc
    simp only [Option.isSome_none, Bool.false_eq_true, false_iff]
    intro ⟨a, b, c⟩
    exact hc ⟨a, b, by simp only [WORD_SIZE]; omega⟩

/-- C4: on in-contract inputs (`width > 1`, `0 ≤ field < 2^width`),
`sign_extend` returns `field` when the sign bit is clear and
`field - 2^width` when it is set; either way the result lies in
`[-2^(width-1), 2^(width-1) - 1]`. -/
theorem sign_extend_in_contract (field width : Int) (h1 : 1 < width) (h2 : 0 ≤ field)
    (h3 : field < ((2 ^ width.toNat : Nat) : Int)) :
    ∃ r, sign_extend field width = some r ∧
      (Int.land field ((2 ^ (width.toNat - 1) : Nat) : Int) = 0 → r = field) ∧
      (Int.land field ((2 ^ (width.toNat - 1) : Nat) : Int) ≠ 0 →
        r = field - ((2 ^ width.toNat : Nat) : Int)) ∧
      -(((2 ^ (width.toNat - 1) : Nat) : Int)) ≤ r ∧
      r ≤ ((2 ^ (width.toNat - 1) : Nat) : Int) - 1 := by
  obtain ⟨W, rfl⟩ := Int.eq_ofNat_of_zero_le (show (0 : Int) ≤ width by omega)
  obtain ⟨n, rfl⟩ := Int.eq_ofNat_of_zero_le h2
  have hW : 2 ≤ W := by
    have : (1 : Int) < (W : Int) := h1
    omega
  rw [Int.toNat_ofNat] at h3 ⊢
  have hn : n < 2 ^ W := by exact_mod_cast h3
  have hsplit : 2 ^ (W - 1) * 2 = 2 ^ W := by
    rw [← pow_succ]
    congr 1
    omega
  rw [sign_extend_eval n W hW (by omega)]
  rcases Nat.lt_or_ge n (2 ^ (W - 1)) with hlt | hge
  · have hb : n.testBit (W - 1) = false := Nat.testBit_lt_two_pow hlt
    have hz : n &&& 2 ^ (W - 1) = 0 := by
      rw [Nat.and_two_pow, hb]
      simp
    rw [if_neg (by simp [hz])]
    refine ⟨(n : Int), rfl, fun _ => rfl, fun hne => absurd ?_ hne, ?_, ?_⟩
    · rw [int_land_natCast, hz]
      rfl
    · have := Int.ofNat_nonneg n
      have := Int.ofNat_nonneg (2 ^ (W - 1))
      omega
    · have : (n : Int) < ((2 ^ (W - 1) : Nat) : Int) := by exact_mod_cast hlt
      omega
  · have hb : n.testBit (W - 1) = true := by
      rw [testBit_msb_div n (W - 1) (by omega)]
      simp [hge]
    have hnz : n &&& 2 ^ (W - 1) ≠ 0 := by
      rw [Nat.and_two_pow, hb]
      simp
    rw [if_pos hnz]
    have hmod : n &&& (2 ^ (W - 1) - 1) = n - 2 ^ (W - 1) := by
      rw [Nat.and_pow_two_sub_one_eq_mod, Nat.mod_eq_sub_mod hge,
        Nat.mod_eq_of_lt (by omega)]
    rw [hmod]
    refine ⟨_, rfl, fun hzero => ?_, fun _ => ?_, ?_, ?_⟩
    · exfalso
      rw [int_land_natCast] at hzero
      have : n &&& 2 ^ (W - 1) = 0 := by exact_mod_cast hzero
      exact hnz this
    · have c1 : ((n - 2 ^ (W - 1) : Nat) : Int) = (n : Int) - ((2 ^ (W - 1) : Nat) : Int) := by
        omega
      have c2 : ((2 ^ W : Nat) : Int) = ((2 ^ (W - 1) : Nat) : Int) * 2 := by
        exact_mod_cast hsplit.symm
      omega
    · have : ((n - 2 ^ (W - 1) : Nat) : Int) = (n : Int) - ((2 ^ (W - 1) : Nat) : Int) := by
        omega
      omega
    · have c1 : ((n - 2 ^ (W - 1) : Nat) : Int) = (n : Int) - ((2 ^ (W - 1) : Nat) : Int) := by
        omega
      have c2 : (n : Int) < ((2 ^ W : Nat) : Int) := by exact_mod_cast hn
      have c3 : ((2 ^ W : Nat) : Int) = ((2 ^ (W - 1) : Nat) : Int) * 2 := by
        exact_mod_cast hsplit.symm
      omega

/-- Witness for C4 at `field = 7`, `width = 3`. -/
theorem sign_extend_in_contract_witness :
    (1 : Int) < 3 ∧ (0 : Int) ≤ 7 ∧ (7 : Int) < ((2 ^ (3 : Int).toNat : Nat) : Int) ∧
    (∃ r, sign_extend 7 3 = some r ∧
      (Int.land 7 ((2 ^ ((3 : Int).toNat - 1) : Nat) : Int) = 0 → r = 7) ∧
      (Int.land 7 ((2 ^ ((3 : Int).toNat - 1) : Nat) : Int) ≠ 0 →
        r = 7 - ((2 ^ (3 : Int).toNat : Nat) : Int)) ∧
      -(((2 ^ ((3 : Int).toNat - 1) : Nat) : Int)) ≤ r ∧
      r ≤ ((2 ^ ((3 : Int).toNat - 1) : Nat) : Int) - 1) :=
  ⟨by decide, by decide, by decide,
    sign_extend_in_contract 7 3 (by decide) (by decide) (by decide)⟩

/-- C5 is a code bug: the source's docstring requires `field` to fit in
`width` bits, but the assertion tests `field < 1 << (width + 1)`, one bit
too many.  At `field = 4`, `width = 2` the call returns `4` instead of
failing. -/
theorem sign_extend_lax_assert : sign_extend 4 2 = some 4 := by decide

/-- C6: concrete sign-extension values: `sign_extend(0b111, 3) = -1`,
`sign_extend(0b011, 3) = 3`, `sign_extend(0b100, 3) = -4`, and
`sign_extend(7, 4) = 7`. -/
theorem sign_extend_examples :
    sign_extend 7 3 = some (-1) ∧ sign_extend 3 3 = some 3 ∧
    sign_extend 4 3 = some (-4) ∧ sign_extend 7 4 = some 7 := by
  decide

/-- C7: documented example: for the field covering bits 4..7,
`insert(0x0f, 0xaa00aa00) = 0xaa00aaf0`. -/
theorem insert_documented_example :
    (mkBitField 4 7).map (fun bf => bf.insert 0x0f 0xaa00aa00) = some 0xaa00aaf0 := by
  decide

/-- C8: `sign_extend` is a pure function of its two arguments: equal
arguments give equal results. -/
theorem sign_extend_deterministic (f1 f2 w1 w2 : Int) (hf : f1 = f2) (hw : w1 = w2) :
    sign_extend f1 w1 = sign_extend f2 w2 := by
  rw [hf, hw]

/-- Witness for C8. -/
theorem sign_extend_deterministic_witness :
    (7 : Int) = 7 ∧ (3 : Int) = 3 ∧ sign_extend 7 3 = sign_extend 7 3 :=
  ⟨rfl, rfl, sign_extend_deterministic 7 7 3 3 rfl rfl⟩

/-- C9: the accepted domain of `sign_extend` is wider than documented: for
`width > 1` every `field` with `0 ≤ field < 2^(width+1)` passes the
assertion and a value is returned. -/
theorem sign_extend_wide_domain (field width : Int) (h1 : 1 < width) (h2 : 0 ≤ field)
    (h3 : field < ((2 ^ (width.toNat + 1) : Nat) : Int)) :
    (sign_extend field width).isSome = true := by
  obtain ⟨W, rfl⟩ := Int.eq_ofNat_of_zero_le (show (0 : Int) ≤ width by omega)
  obtain ⟨n, rfl⟩ := Int.eq_ofNat_of_zero_le h2
  have hW : 2 ≤ W := by
    have : (1 : Int) < (W : Int) := h1
    omega
  rw [Int.toNat_ofNat] at h3
  have hn : n < 2 ^ (W + 1) := by exact_mod_cast h3
  rw [sign_extend_eval n W hW hn]
  split <;> rfl

/-- Witness for C9 at `field = 2^width = 4`, `width = 2`: the call does
not raise even though `field` does not fit in `width` bits. -/
theorem sign_extend_wide_domain_witness :
    (1 : Int) < 2 ∧ (0 : Int) ≤ 4 ∧
    (4 : Int) < ((2 ^ ((2 : Int).toNat + 1) : Nat) : Int) ∧
    (sign_extend 4 2).isSome = true :=
  ⟨by decide, by decide, by decide,
    sign_extend_wide_domain 4 2 (by decide) (by decide) (by decide)⟩

/-- C10: on an over-wide input that passes the assertion and whose bit
`width - 1` is clear, `sign_extend` returns `field` unchanged, a value
greater than `2^(width-1) - 1`. -/
theorem sign_extend_overwide_positive (field width : Int) (h1 : 1 < width)
    (h2 : ((2 ^ width.toNat : Nat) : Int) ≤ field)
    (h3 : field < ((2 ^ (width.toNat + 1) : Nat) : Int))
    (h4 : Int.land field ((2 ^ (width.toNat - 1) : Nat) : Int) = 0) :
    sign_extend field width = some field ∧
      ((2 ^ (width.toNat - 1) : Nat) : Int) - 1 < field := by
  obtain ⟨W, rfl⟩ := Int.eq_ofNat_of_zero_le (show (0 : Int) ≤ width by omega)
  obtain ⟨n, rfl⟩ :=
    Int.eq_ofNat_of_zero_le (le_trans (Int.ofNat_nonneg _) h2)
  have hW : 2 ≤ W := by
    have : (1 : Int) < (W : Int) := h1
    omega
  rw [Int.toNat_ofNat] at h2 h3 h4 ⊢
  have hn : n < 2 ^ (W + 1) := by exact_mod_cast h3
  have hz : n &&& 2 ^ (W - 1) = 0 := by
    rw [int_land_natCast] at h4
    exact_mod_cast h4
  rw [sign_extend_eval n W hW hn, if_neg (by simp [hz])]
  refine ⟨rfl, ?_⟩
  have c1 : (2 ^ (W - 1) : Nat) ≤ 2 ^ W := Nat.pow_le_pow_right (by norm_num) (by omega)
  have c2 : ((2 ^ (W - 1) : Nat) : Int) ≤ ((2 ^ W : Nat) : Int) := by exact_mod_cast c1
  omega

/-- Witness for C10 at `field = 8`, `width = 3`. -/
theorem sign_extend_overwide_positive_witness :
    (1 : Int) < 3 ∧ ((2 ^ (3 : Int).toNat : Nat) : Int) ≤ 8 ∧
    (8 : Int) < ((2 ^ ((3 : Int).toNat + 1) : Nat) : Int) ∧
    Int.land 8 ((2 ^ ((3 : Int).toNat - 1) : Nat) : Int) = 0 ∧
    (sign_extend 8 3 = some 8 ∧ ((2 ^ ((3 : Int).toNat - 1) : Nat) : Int) - 1 < 8) :=
  ⟨by decide, by decide, by decide, by decide,
    sign_extend_overwide_positive 8 3 (by decide) (by decide) (by decide) (by decide)⟩

/-- Witness for C1: the round trip at the documented field, with a value
wider than the field (0x1234 truncates to its low 4 bits). -/
theorem extract_insert_roundtrip_witness :
    mkBitField 4 7 = some ⟨4, 7⟩ ∧
    BitField.extract ⟨4, 7⟩ (BitField.insert ⟨4, 7⟩ 0x1234 0xaa00aa00) =
      Int.land 0x1234 ((2 ^ BitField.width ⟨4, 7⟩ - 1 : Nat) : Int) :=
  ⟨by decide, extract_insert_roundtrip 4 7 ⟨4, 7⟩ 0x1234 0xaa00aa00 (by decide)⟩

/-- Witness for C2: bit 8 of the word (outside field 4..7) is preserved. -/
theorem insert_frame_witness :
    mkBitField 4 7 = some ⟨4, 7⟩ ∧ (0 : Int) ≤ 0xaa00aa00 ∧
    (0xaa00aa00 : Int) < ((2 ^ WORD_SIZE : Nat) : Int) ∧
    ((8 : Nat) < (⟨4, 7⟩ : BitField).from_bit ∨ (⟨4, 7⟩ : BitField).to_bit < 8) ∧
    Int.testBit (BitField.insert ⟨4, 7⟩ 0x0f 0xaa00aa00) 8 = Int.testBit 0xaa00aa00 8 :=
  ⟨by decide, by decide, by decide, by decide,
    insert_frame 4 7 ⟨4, 7⟩ 0x0f 0xaa00aa00 8 (by decide) (by decide) (by decide) (by decide)⟩
